import Mathlib

/-!
Shallow embedding of the deep-researcher indexing and retrieval core
(backend/app/utils.py, indexer.py, llm_client.py, job_manager.py, main.py).
Text is modelled as `List Char`; real-valued embedding arithmetic produced by
external capabilities (the sentence-transformer model, faiss) enters the model
as explicit inputs, while all control flow, list manipulation and ordering
logic is translated from the source.
-/

namespace DR

/-! ## Chunker (utils.py, simple_chunk_text) -/

/-- Python whitespace predicate used by `str.strip`, `str.split` and `\s`. -/
def isWS (c : Char) : Bool :=
  c = ' ' || c = '\t' || c = '\n' || c = '\r' || c = '\x0b' || c = '\x0c'

/-- Python `str.strip()`: drop leading and trailing whitespace. -/
def pyStrip (s : List Char) : List Char :=
  ((s.dropWhile isWS).reverse.dropWhile isWS).reverse

/-- Sentence-boundary class of the chunker regex `(?<=[\.\?\!\n])\s+`. -/
def isBoundary (c : Char) : Bool :=
  c = '.' || c = '?' || c = '!' || c = '\n'

mutual

/-- Scanner for Python `re.split(r'(?<=[C])\s+', text)` with lookbehind class
`bnd`: while inside a token, a whitespace char whose predecessor is in the
class starts a separator; `prev` is the previous character of the input and
`cur` the (reversed) token built so far. -/
def resplitGo (bnd : Char → Bool) : List Char → Option Char → List Char → List (List Char)
  | [], _, cur => [cur.reverse]
  | c :: rest, prev, cur =>
    if isWS c && (match prev with | some p => bnd p | none => false) then
      cur.reverse :: resplitSep bnd rest
    else
      resplitGo bnd rest (some c) (c :: cur)

/-- Scanner state inside a separator: consume the maximal whitespace run, then
start the next token. -/
def resplitSep (bnd : Char → Bool) : List Char → List (List Char)
  | [] => [[]]
  | c :: rest => if isWS c then resplitSep bnd rest else resplitGo bnd rest (some c) [c]

end

/-- Python `re.split(r'(?<=[\.\?\!\n])\s+', text)` of utils.py line 138. -/
def resplit (text : List Char) : List (List Char) :=
  resplitGo isBoundary text none []

/-- Body of the hard-split `while start < len(s)` loop of utils.py lines
152-156, with explicit fuel; `step` is the Python increment
`chunk_size - overlap`.  For `overlap >= chunk_size` the Python loop never
terminates; the fuel then merely truncates (theorem `c10_hard_split_loop_terminates`
shows the fuel below is never exhausted when `overlap < chunk_size`). -/
def hsGo (s : List Char) (size step : Nat) : Nat → Nat → List (List Char)
  | 0, _ => []
  | fuel + 1, start =>
    if start < s.length then
      ((s.drop start).take size) :: hsGo s size step fuel (start + step)
    else []

/-- Hard split of a single over-long sentence (utils.py lines 151-157). -/
def hardSplit (s : List Char) (size ov : Nat) : List (List Char) :=
  hsGo s size (size - ov) (s.length + 1) 0

/-- Sentence-accumulation loop of utils.py lines 141-161: `current` is the
running buffer, `chunks` the output so far. -/
def chunkLoop (size ov : Nat) : List (List Char) → List Char → List (List Char) → List (List Char)
  | [], current, chunks => if current = [] then chunks else chunks ++ [current]
  | s0 :: rest, current, chunks =>
    let s := pyStrip s0
    if s = [] then chunkLoop size ov rest current chunks
    else if current.length + 1 + s.length ≤ size then
      chunkLoop size ov rest (if current = [] then s else pyStrip (current ++ [' '] ++ s)) chunks
    else
      let chunks1 := if current = [] then chunks else chunks ++ [current]
      if s.length > size then
        chunkLoop size ov rest [] (chunks1 ++ hardSplit s size ov)
      else
        chunkLoop size ov rest s chunks1

/-- utils.py `simple_chunk_text(text, chunk_size=1000, overlap=200)`. -/
def simple_chunk_text (text : List Char) (chunk_size : Nat) (overlap : Nat) : List (List Char) :=
  if text = [] then []
  else
    let t := pyStrip text
    if t.length ≤ chunk_size then [t]
    else chunkLoop chunk_size overlap (resplit t) [] []

/-- Concatenation of chunks with the overlapping portions removed: every chunk
contributes its first `step` characters (the part not shared with its
successor), the last chunk contributes all of itself. -/
def dropOverlapJoin (step : Nat) : List (List Char) → List Char
  | [] => []
  | [p] => p
  | p :: q :: rest => p.take step ++ dropOverlapJoin step (q :: rest)

/-! ## Embedding store (indexer.py) -/

/-- Metadata record appended per chunk (indexer.py line 83):
`{"source": pth.name, "text": c}`. -/
structure ChunkRecord where
  source : List Char
  text : List Char
deriving DecidableEq

instance : Inhabited ChunkRecord := ⟨⟨[], []⟩⟩

/-- In-memory state of the `Indexer`: `self.embeddings` (an optional matrix,
rows as rational vectors) and `self.metadata`. -/
structure Store where
  embeddings : Option (List (List ℚ))
  metadata : List ChunkRecord
deriving DecidableEq

/-- Number of rows of the EmbeddingMatrix (0 when `self.embeddings is None`). -/
def Store.rows (st : Store) : Nat := (st.embeddings.getD []).length

/-- Outcome of reading one persisted artifact in `_load_index_files`:
the file is absent, present but failing to deserialize, or loaded. -/
inductive Artifact (α : Type) where
  | missing : Artifact α
  | unreadable : Artifact α
  | loaded (a : α) : Artifact α

/-- indexer.py `_load_index_files` (lines 41-57): each artifact is recovered
independently; a missing or unreadable metadata file leaves `metadata = []`,
a missing or unreadable embeddings file leaves `embeddings = None`. -/
def load_index_files (metaFile : Artifact (List ChunkRecord)) (embFile : Artifact (List (List ℚ))) : Store :=
  { metadata := match metaFile with
      | .loaded m => m
      | _ => []
    embeddings := match embFile with
      | .loaded e => some e
      | _ => none }

/-- Abstract error kinds of the store (spec section 7 names the width failure
`DimensionMismatch`; in the source it surfaces as the `ValueError` numpy raises
from `np.vstack` on mismatched trailing dimensions). -/
inductive IndexError where
  | dimensionMismatch : IndexError
deriving DecidableEq

/-- Width (trailing dimension) of a matrix given by its first row; `none` for
an empty matrix.  numpy arrays are rectangular, so this determines the width of
every row for matrices built by the source. -/
def matWidth : List (List ℚ) → Option Nat
  | [] => none
  | r :: _ => some r.length

/-- Model of `np.vstack([a, b])` on two non-degenerate matrices: succeeds with
the concatenated rows when the trailing dimensions agree, raises otherwise. -/
def vstack (a b : List (List ℚ)) : Except IndexError (List (List ℚ)) :=
  match matWidth a, matWidth b with
  | some w1, some w2 => if w1 = w2 then .ok (a ++ b) else .error .dimensionMismatch
  | _, _ => .ok (a ++ b)

/-- Append step of `index_documents` (indexer.py lines 91-96) run against a
store: the first branch replaces both fields when `self.embeddings is None`;
otherwise `self.embeddings = np.vstack(...)` executes before
`self.metadata.extend(sources)`, so when `np.vstack` raises neither field has
been assigned and the pair `(old store, the error)` is returned.  `sources` and
`embs` come from the chunk-collection loop and `self.model.encode`, which
yields one vector per chunk text, all of one width. -/
def indexAppendRun (st : Store) (sources : List ChunkRecord) (embs : List (List ℚ)) :
    Store × Option IndexError :=
  match st.embeddings with
  | none => ({ embeddings := some embs, metadata := sources }, none)
  | some m =>
    match vstack m embs with
    | .error e => (st, some e)
    | .ok m2 => ({ embeddings := some m2, metadata := st.metadata ++ sources }, none)

/-! ## Similarity search (indexer.py, `_safe_cosine_search` and `query`) -/

/-- Distance value read from `dists` at index `i` (indices produced by argsort
are always in range). -/
def dAt (d : List ℚ) (i : Nat) : ℚ := d.getD i 0

/-- Order used by the model of `np.argsort`: ascending distance; on ties the
original (lower) index first.  This is one admissible refinement of
`np.argsort`'s contract (indices sorting the array ascending): numpy's default
sort kind is documented as not stable, so the lower-index-first tie order is a
choice of the model, not a guarantee of the program. -/
def rankLE (d : List ℚ) (i j : Nat) : Prop :=
  dAt d i < dAt d j ∨ (dAt d i = dAt d j ∧ i ≤ j)

instance (d : List ℚ) : DecidableRel (rankLE d) := fun i j => by
  unfold rankLE; infer_instance

/-- Model of `np.argsort(dists)`: the indices `0..len-1` sorted by distance. -/
def argsort (d : List ℚ) : List Nat :=
  List.insertionSort (rankLE d) (List.range d.length)

/-- indexer.py `_safe_cosine_search` (lines 126-140) given the vector of brute
force cosine distances `dists` (`1 - sims`, computed by real-valued numpy
arithmetic from the stored and query embeddings): keep the first `top_k`
positions of the argsort and return `(distance, index)` pairs. -/
def safe_cosine_search (dists : List ℚ) (top_k : Nat) : List (ℚ × Nat) :=
  ((argsort dists).take top_k).map (fun i => (dAt dists i, i))

/-- Deduplication by chunk text with a `seen` set, first occurrence wins
(indexer.py lines 172-181 and 193-201). -/
def dedupeByText : List (ℚ × ChunkRecord) → List (List Char) → List (ℚ × ChunkRecord)
  | [], _ => []
  | (d, m) :: rest, seen =>
    if m.text ∈ seen then dedupeByText rest seen
    else (d, m) :: dedupeByText rest (m.text :: seen)

/-- Brute-force branch of `query` (indexer.py lines 186-202): look up metadata
for every in-range index, then dedupe by text. -/
def queryFallback (metadata : List ChunkRecord) (dists : List ℚ) (top_k : Nat) :
    List (ℚ × ChunkRecord) :=
  dedupeByText
    (((safe_cosine_search dists top_k).filter (fun di => di.2 < metadata.length)).map
      (fun di => (di.1, metadata.getD di.2 default)))
    []

/-- Value of one cell of the distance row `D[0]` returned by
`self.faiss_index.search`: either a NaN or an actual number. -/
inductive NpFloat where
  | nan : NpFloat
  | val (q : ℚ) : NpFloat
deriving DecidableEq

/-- Sanity check of indexer.py line 164:
`np.isnan(dist_val) or dist_val > 1e6 or dist_val < -1e6`. -/
def NpFloat.isInvalid : NpFloat → Bool
  | .nan => true
  | .val q => q > 1000000 || q < -1000000

/-- Python list indexing `l[i]` for `int` indices: negative indices address
from the end, out-of-range raises `IndexError`. -/
def pyGet (l : List ChunkRecord) (i : ℤ) : Except Unit ChunkRecord :=
  if 0 ≤ i ∧ i.toNat < l.length then .ok (l.getD i.toNat default)
  else if i < 0 ∧ 0 ≤ i + l.length ∧ (i + l.length).toNat < l.length then
    .ok (l.getD (i + l.length).toNat default)
  else .error ()

/-- Loop over `zip(D[0], I[0])` of indexer.py lines 162-169: raise on an
invalid distance, otherwise convert inner-product similarity `s` to distance
`1 - s` and look the index up in the metadata (raising on out-of-range). -/
def faissLoop (metadata : List ChunkRecord) : List (NpFloat × ℤ) → List (ℚ × ChunkRecord) →
    Except Unit (List (ℚ × ChunkRecord))
  | [], acc => .ok acc
  | (dv, idx) :: rest, acc =>
    if dv.isInvalid then .error ()
    else
      match dv with
      | .nan => .error ()
      | .val s =>
        match pyGet metadata idx with
        | .error e => .error e
        | .ok m => faissLoop metadata rest (acc ++ [(1 - s, m)])

/-- Whole faiss branch of `query` (indexer.py lines 156-181): run the loop over
the reply of `self.faiss_index.search` (itself fallible), keep the dict-shaped
entries (always the case here), dedupe by text. -/
def faissPathRun (metadata : List ChunkRecord) (reply : Except Unit (List (NpFloat × ℤ))) :
    Except Unit (List (ℚ × ChunkRecord)) :=
  match reply with
  | .error e => .error e
  | .ok pairs =>
    match faissLoop metadata pairs [] with
    | .error e => .error e
    | .ok results => .ok (dedupeByText results [])

/-- indexer.py `query` (lines 142-202).  `reply` is the outcome of the external
`self.faiss_index.search` call and `dists` the brute-force distance vector; the
`try`/`except` around the faiss branch turns any of its failures into a silent
fall-through to `_safe_cosine_search`. -/
def query (st : Store) (faissAvailable faissIndexLoaded : Bool)
    (reply : Except Unit (List (NpFloat × ℤ))) (dists : List ℚ) (top_k : Nat) :
    Except (List Char) (List (ℚ × ChunkRecord)) :=
  if st.embeddings.isNone || decide (st.metadata = []) then
    .error ("Index not built or empty. Please upload documents first.".data)
  else
    match (if faissAvailable && faissIndexLoaded
           then faissPathRun st.metadata reply
           else .error ()) with
    | .ok r => .ok r
    | .error _ => .ok (queryFallback st.metadata dists top_k)

/-! ## LLM client (llm_client.py) -/

/-- Fueled scanner for Python `s.replace(pat, "")`: remove the left-most
occurrence of `pat` and continue after it, as `str.replace` does with an empty
replacement.  Every step consumes at least one character, so fuel equal to the
length of the string suffices. -/
def lrGo (pat : List Char) : Nat → List Char → List Char
  | 0, l => l
  | _ + 1, [] => []
  | fuel + 1, c :: rest =>
    if pat ≠ [] ∧ pat.isPrefixOf (c :: rest) then
      lrGo pat fuel ((c :: rest).drop pat.length)
    else
      c :: lrGo pat fuel rest

/-- Python `s.replace(pat, "")`. -/
def listReplace (pat : List Char) (l : List Char) : List Char :=
  lrGo pat l.length l

/-- Python `s.split()` with no argument: the maximal whitespace-free words, in
order; `acc` is the (reversed) word being built. -/
def pyWordsGo : List Char → List Char → List (List Char)
  | [], acc => if acc = [] then [] else [acc.reverse]
  | c :: rest, acc =>
    if isWS c then
      if acc = [] then pyWordsGo rest [] else acc.reverse :: pyWordsGo rest []
    else pyWordsGo rest (c :: acc)

/-- llm_client.py `_clean_token` (lines 14-21): delete `<think>`, `</think>`
and NUL, collapse whitespace runs via `" ".join(s.split())`, strip. -/
def cleanToken (s : List Char) : List Char :=
  let s1 := listReplace "\x00".data (listReplace "</think>".data (listReplace "<think>".data s))
  pyStrip (List.intercalate [' '] (pyWordsGo s1 []))

/-- Sentence-boundary class `[.!?]` of llm_client.py line 93 (and of
`split_sentences` in utils.py). -/
def isBoundary2 (c : Char) : Bool :=
  c = '.' || c = '!' || c = '?'

/-- Bullet-form post-processing of a non-empty extracted answer (llm_client.py
lines 86-97): an answer not starting with `-` and having at most one non-blank
line is re-split into sentences and bulleted; otherwise it is returned as is. -/
def bulletize (answer : List Char) : List Char :=
  if (pyStrip answer).take 1 = ['-'] then answer
  else
    let sentences := ((answer.splitOnP (· = '\n')).map pyStrip).filter (fun s => s ≠ [])
    if sentences.length ≤ 1 then
      let sents := ((resplitGo isBoundary2 answer none []).map pyStrip).filter (fun s => s ≠ [])
      List.intercalate ['\n'] ((sents.take 6).map (fun s => "- ".data ++ s))
    else answer

/-- Python `s[:300].rsplit(" ", 1)[0]`: the prefix of the first 300 characters
up to the last space, or the whole prefix when it has no space. -/
def truncAtSpace (s : List Char) : List Char :=
  let t := s.take 300
  if ' ' ∈ t then (((t.reverse).dropWhile (fun c => !(c = ' '))).drop 1).reverse
  else t

/-- Answer literal `"I don't know"` of llm_client.py line 111 (the apostrophe
is spelled via its code point). -/
def idk : List Char := "I don".data ++ [Char.ofNat 39] ++ "t know".data

/-- Deduplicating bullet loop of `_local_bulleted_fallback` (llm_client.py
lines 113-125): case-insensitive `seen` set, 300-character truncation with an
ellipsis, stop after 6 bullets. -/
def fbLoop : List (List Char) → List (List Char) → List (List Char) → List (List Char)
  | [], _, bullets => bullets
  | p :: rest, seen, bullets =>
    let s := pyStrip p
    if s.map Char.toLower ∈ seen then fbLoop rest seen bullets
    else
      let seen2 := s.map Char.toLower :: seen
      let s2 := if s.length > 300 then truncAtSpace s ++ "...".data else s
      let bullets2 := bullets ++ ["- ".data ++ s2]
      if 6 ≤ bullets2.length then bullets2 else fbLoop rest seen2 bullets2

/-- llm_client.py `_local_bulleted_fallback` (lines 101-126).  The extractive
summarizer is the external text-to-text utility of the spec (section 1); it is
passed in as `summ`, standing for `extractive_summary(c, max_sentences=2)`. -/
def local_bulleted_fallback (summ : List Char → List Char) (contexts : List (List Char)) :
    List Char :=
  let pieces := (((contexts.take 6).filter (fun c => c ≠ [])).map summ).filter (fun s => s ≠ [])
  if pieces = [] then idk
  else List.intercalate ['\n'] (fbLoop pieces [] [])

/-- Body of the HTTP response of the generation service: either the JSON parse
failed (`resp.text` is carried), or it parsed and
`_extract_text_from_ollama_response` produced the carried (already cleaned)
string. -/
inductive RespBody where
  | rawText (t : List Char) : RespBody
  | jsonExtracted (t : List Char) : RespBody

/-- Outcome of `requests.post` in `generate_answer_ollama`: a transport-level
`RequestException`, or a response with a status code and body. -/
inductive HttpOutcome where
  | transportError (e : List Char) : HttpOutcome
  | response (status : Nat) (body : RespBody) : HttpOutcome

/-- llm_client.py `generate_answer_ollama` (lines 43-98) with the external call
outcome made explicit: transport failure and non-200 statuses fall back; a
non-JSON body is returned as its cleaned text when that is non-empty, else
falls back; a parsed body with a non-empty extracted answer is bulletized, an
empty one falls back. -/
def generate_answer_ollama (summ : List Char → List Char) (q : List Char)
    (contexts : List (List Char)) (outcome : HttpOutcome) : List Char :=
  match outcome with
  | .transportError _ => local_bulleted_fallback summ contexts
  | .response status body =>
    if status ≠ 200 then local_bulleted_fallback summ contexts
    else
      match body with
      | .rawText t =>
        let cleaned := cleanToken t
        if cleaned ≠ [] then cleaned else local_bulleted_fallback summ contexts
      | .jsonExtracted ans =>
        if ans ≠ [] then bulletize ans else local_bulleted_fallback summ contexts

/-! ## Job manager (job_manager.py) and endpoints (main.py) -/

/-- Job lifecycle states. -/
inductive JobStatus where
  | pending : JobStatus
  | running : JobStatus
  | done : JobStatus
  | failed : JobStatus
deriving DecidableEq

/-- One entry of the `JOBS` dict: `{"status": ..., "result": ..., "error":
...}`; a result is the answer together with the `(distance, record)` sources. -/
structure Job where
  status : JobStatus
  result : Option (List Char × List (ℚ × ChunkRecord))
  error : Option (List Char)
deriving DecidableEq

/-- The process-wide `JOBS` registry, keyed by the opaque job id. -/
abbrev Jobs := List (List Char × Job)

/-- job_manager.py `create_job` with the freshly drawn uuid passed in. -/
def create_job (jobs : Jobs) (jobId : List Char) : Jobs :=
  (jobId, ⟨.pending, none, none⟩) :: jobs

/-- Update of `JOBS[job_id]` guarded by `if job_id in JOBS`. -/
def updateJob (jobs : Jobs) (jobId : List Char) (f : Job → Job) : Jobs :=
  jobs.map (fun kv => if kv.1 = jobId then (kv.1, f kv.2) else kv)

/-- job_manager.py `set_job_running`. -/
def set_job_running (jobs : Jobs) (jobId : List Char) : Jobs :=
  updateJob jobs jobId (fun j => { j with status := .running })

/-- job_manager.py `set_job_done`. -/
def set_job_done (jobs : Jobs) (jobId : List Char)
    (res : List Char × List (ℚ × ChunkRecord)) : Jobs :=
  updateJob jobs jobId (fun j => { j with status := .done, result := some res })

/-- job_manager.py `set_job_failed`. -/
def set_job_failed (jobs : Jobs) (jobId : List Char) (e : List Char) : Jobs :=
  updateJob jobs jobId (fun j => { j with status := .failed, error := some e })

/-- job_manager.py `get_job` (`JOBS.get`). -/
def get_job (jobs : Jobs) (jobId : List Char) : Option Job :=
  (jobs.find? (fun kv => kv.1 == jobId)).map (fun kv => kv.2)

/-- main.py `shorten_contexts` (lines 93-100): summarize each context, fall
back to the first 300 characters when the summary is empty. -/
def shorten_contexts (summ : List Char → List Char) (contexts : List (List Char)) :
    List (List Char) :=
  contexts.map (fun c => let s := summ c; if s = [] then c.take 300 else s)

/-- main.py `_worker_answer` (lines 105-119): mark running, retrieve, shorten,
generate, mark done; any failure (here: of the retrieval step) marks the job
failed with the error text. -/
def worker_answer (jobs : Jobs) (jobId q : List Char) (summ : List Char → List Char)
    (queryRes : Except (List Char) (List (ℚ × ChunkRecord))) (outcome : HttpOutcome) : Jobs :=
  let jobs1 := set_job_running jobs jobId
  match queryRes with
  | .error e => set_job_failed jobs1 jobId e
  | .ok results =>
    let contexts := results.map (fun r => r.2.text)
    let short := shorten_contexts summ contexts
    let answer := generate_answer_ollama summ q short outcome
    set_job_done jobs1 jobId (answer, results)

/-- main.py `query_job` endpoint (lines 124-135): reject a blank question or an
empty metadata list with a 400 before any job is created; otherwise create the
job and return its id.  The returned registry is the registry after the call. -/
def query_jobRun (jobs : Jobs) (newId q : List Char) (st : Store) :
    Jobs × Except (List Char) (List Char) :=
  if pyStrip q = [] then (jobs, .error ("q is required".data))
  else if st.metadata.length = 0 then
    (jobs, .error ("Index not built or empty. Please upload documents first.".data))
  else (create_job jobs newId, .ok newId)

/-! ## Claims C1 and C2: store length invariant and dimension mismatch -/

/-- C1 counterexample: with the metadata artifact unreadable but the
embeddings artifact loaded (one row), `_load_index_files` produces a store
whose EmbeddingMatrix has 1 row while the ChunkRecord list is empty, so the
claimed invariant fails when one persisted artifact is unreadable at load. -/
theorem c1_counterexample :
    (load_index_files Artifact.unreadable (Artifact.loaded [[(1 : ℚ)]])).rows ≠
      (load_index_files Artifact.unreadable (Artifact.loaded [[(1 : ℚ)]])).metadata.length := by
  decide

/-- C1 amended: after an append via `index_documents` the row count equals the
record count, provided the pre-append store was consistent (equal counts, or
no matrix yet) and the encoder returned one vector per collected record; the
invariant can fail only through a load where exactly one artifact is missing
or unreadable. -/
theorem c1_amended (st : Store) (sources : List ChunkRecord) (embs : List (List ℚ))
    (hlen : embs.length = sources.length)
    (hpre : st.embeddings = none ∨ st.rows = st.metadata.length)
    (hok : (indexAppendRun st sources embs).2 = none) :
    (indexAppendRun st sources embs).1.rows = (indexAppendRun st sources embs).1.metadata.length := by
  rcases hemb : st.embeddings with _ | m
  · simp [indexAppendRun, hemb, Store.rows, hlen]
  · rcases hpre with hpre | hpre
    · simp [hemb] at hpre
    · rcases hv : vstack m embs with e | m2
      · simp [indexAppendRun, hemb, hv] at hok
      · have hm2 : m2 = m ++ embs := by
          unfold vstack at hv
          rcases m with _ | ⟨r, mtl⟩ <;> rcases embs with _ | ⟨r2, etl⟩ <;>
            simp_all [matWidth] <;> split at hv <;> simp_all
        have hrows : st.rows = m.length := by simp [Store.rows, hemb]
        simp only [indexAppendRun, hemb, hv, Store.rows, hm2, Option.getD_some,
          List.length_append]
        have := hrows ▸ hpre
        omega

/-- C1 witness: the amended invariant instantiated at a consistent one-row
store and a one-chunk append. -/
theorem c1_amended_witness :
    ([[(2 : ℚ)]].length = [(⟨"b".data, "c".data⟩ : ChunkRecord)].length) ∧
      ((⟨some [[(1 : ℚ)]], [⟨"a".data, "x".data⟩]⟩ : Store).embeddings = none ∨
        (⟨some [[(1 : ℚ)]], [⟨"a".data, "x".data⟩]⟩ : Store).rows =
          (⟨some [[(1 : ℚ)]], [⟨"a".data, "x".data⟩]⟩ : Store).metadata.length) ∧
      (indexAppendRun ⟨some [[(1 : ℚ)]], [⟨"a".data, "x".data⟩]⟩
          [⟨"b".data, "c".data⟩] [[(2 : ℚ)]]).1.rows =
        (indexAppendRun ⟨some [[(1 : ℚ)]], [⟨"a".data, "x".data⟩]⟩
          [⟨"b".data, "c".data⟩] [[(2 : ℚ)]]).1.metadata.length :=
  ⟨by decide, Or.inr (by decide),
    c1_amended _ _ _ (by decide) (Or.inr (by decide)) (by decide)⟩

/-- C2: on a store with an established width, appending vectors of a different
width fails with `DimensionMismatch` (numpy's `ValueError` from `np.vstack`)
and leaves the store, hence both lengths, exactly as before: `np.vstack`
raises before either `self.embeddings` or `self.metadata` is assigned. -/
theorem c2_dimension_mismatch_all_or_nothing (st : Store) (m embs : List (List ℚ))
    (w w2 : Nat) (sources : List ChunkRecord)
    (hemb : st.embeddings = some m) (hw : matWidth m = some w)
    (hw2 : matWidth embs = some w2) (hne : w2 ≠ w) :
    indexAppendRun st sources embs = (st, some IndexError.dimensionMismatch) ∧
      (indexAppendRun st sources embs).1.rows = st.rows ∧
      (indexAppendRun st sources embs).1.metadata.length = st.metadata.length := by
  have hv : vstack m embs = .error .dimensionMismatch := by
    unfold vstack
    rw [hw, hw2]
    exact if_neg (Ne.symm hne)
  refine ⟨?_, ?_, ?_⟩ <;> simp [indexAppendRun, hemb, hv]

/-- C2 witness: a 1-wide store rejects a 2-wide append unchanged. -/
theorem c2_dimension_mismatch_witness :
    ((⟨some [[(1 : ℚ)]], [⟨"a".data, "x".data⟩]⟩ : Store).embeddings = some [[(1 : ℚ)]]) ∧
      matWidth [[(1 : ℚ)]] = some 1 ∧ matWidth [[(2 : ℚ), 3]] = some 2 ∧ (2 : Nat) ≠ 1 ∧
      indexAppendRun ⟨some [[(1 : ℚ)]], [⟨"a".data, "x".data⟩]⟩ [⟨"b".data, "y".data⟩]
          [[(2 : ℚ), 3]] =
        (⟨some [[(1 : ℚ)]], [⟨"a".data, "x".data⟩]⟩, some IndexError.dimensionMismatch) :=
  ⟨by decide, by decide, by decide, by decide,
    (c2_dimension_mismatch_all_or_nothing _ [[(1 : ℚ)]] [[(2 : ℚ), 3]] 1 2 _
      (by decide) (by decide) (by decide) (by decide)).1⟩

/-! ## Claim C10: termination of the hard-split loop -/

/-- Fuel irrelevance of the hard-split loop once the fuel exceeds the distance
to the end of the sentence: with a positive step, each iteration strictly
advances `start`. -/
theorem hsGo_fuel_invariant (s : List Char) (size step : Nat) (hstep : 0 < step) :
    ∀ n fuel1 fuel2 start, s.length - start ≤ n → n < fuel1 → n < fuel2 →
      hsGo s size step fuel1 start = hsGo s size step fuel2 start := by
  intro n
  induction n with
  | zero =>
    intro fuel1 fuel2 start hb h1 h2
    rcases fuel1 with _ | f1
    · omega
    rcases fuel2 with _ | f2
    · omega
    have : ¬ start < s.length := by omega
    simp [hsGo, this]
  | succ n ih =>
    intro fuel1 fuel2 start hb h1 h2
    rcases fuel1 with _ | f1
    · omega
    rcases fuel2 with _ | f2
    · omega
    by_cases hlt : start < s.length
    · simp only [hsGo, hlt, if_true]
      rw [ih f1 f2 (start + step) (by omega) (by omega) (by omega)]
    · simp [hsGo, hlt]

/-- C10: whenever `overlap < chunk_size` the hard-split loop of
`simple_chunk_text` terminates — the advance step `chunk_size - overlap` is
positive and any fuel beyond the sentence length computes the same (stable)
chunk list as `hardSplit`, i.e. the loop exits after at most `len(s)` steps. -/
theorem c10_hard_split_loop_terminates (s : List Char) (size ov : Nat) (hov : ov < size) :
    0 < size - ov ∧
      ∀ fuel, s.length < fuel → hsGo s size (size - ov) fuel 0 = hardSplit s size ov := by
  have hstep : 0 < size - ov := by omega
  refine ⟨hstep, fun fuel hf => ?_⟩
  exact hsGo_fuel_invariant s size (size - ov) hstep s.length fuel (s.length + 1) 0
    (by omega) hf (by omega)

/-- C10 witness: a 3-character sentence with step 1 is hard-split identically
under any sufficient fuel. -/
theorem c10_witness :
    (1 : Nat) < 2 ∧ (0 < 2 - 1 ∧ ∀ fuel, ("abc".data).length < fuel →
      hsGo "abc".data 2 (2 - 1) fuel 0 = hardSplit "abc".data 2 1) :=
  ⟨by decide, c10_hard_split_loop_terminates "abc".data 2 1 (by decide)⟩

/-! ## Claim C9: query submission guards -/

/-- C9: a blank question or an empty metadata list is rejected synchronously
with an error and the job registry is returned unchanged — `create_job` is
only reached after both guards pass. -/
theorem c9_submit_rejected_no_job (jobs : Jobs) (newId q : List Char) (st : Store)
    (h : pyStrip q = [] ∨ st.metadata = []) :
    (query_jobRun jobs newId q st).1 = jobs ∧
      ∃ e, (query_jobRun jobs newId q st).2 = .error e := by
  rcases h with h | h
  · simp [query_jobRun, h]
  · by_cases hq : pyStrip q = []
    · simp [query_jobRun, hq]
    · simp [query_jobRun, hq, h]

/-- C9 witness: a whitespace-only question and an empty store are both
rejected without touching the registry. -/
theorem c9_submit_rejected_witness :
    (pyStrip "  ".data = [] ∨ (⟨none, []⟩ : Store).metadata = []) ∧
      ((query_jobRun [] "j".data "  ".data ⟨none, []⟩).1 = [] ∧
        ∃ e, (query_jobRun [] "j".data "  ".data ⟨none, []⟩).2 = .error e) :=
  ⟨Or.inl (by decide), c9_submit_rejected_no_job [] "j".data "  ".data ⟨none, []⟩
    (Or.inl (by decide))⟩

/-! ## Chunker lemmas and claims C4, C5, C6 -/

/-- Dropping a prefix never lengthens a list. -/
theorem dropWhile_length_le (p : Char → Bool) (l : List Char) :
    (l.dropWhile p).length ≤ l.length := by
  induction l with
  | nil => simp
  | cons c t ih =>
    by_cases h : p c <;> simp [List.dropWhile_cons, h] <;> omega

/-- Stripping never lengthens a string. -/
theorem pyStrip_length_le (l : List Char) : (pyStrip l).length ≤ l.length := by
  unfold pyStrip
  calc ((l.dropWhile isWS).reverse.dropWhile isWS).reverse.length
      = ((l.dropWhile isWS).reverse.dropWhile isWS).length := by simp
    _ ≤ (l.dropWhile isWS).reverse.length := dropWhile_length_le _ _
    _ = (l.dropWhile isWS).length := by simp
    _ ≤ l.length := dropWhile_length_le _ _

/-- A string containing a non-whitespace character does not strip to empty. -/
theorem pyStrip_ne_nil (l : List Char) (h : ∃ c ∈ l, isWS c = false) :
    pyStrip l ≠ [] := by
  intro hnil
  unfold pyStrip at hnil
  rw [List.reverse_eq_nil_iff, List.dropWhile_eq_nil_iff] at hnil
  obtain ⟨c, hc, hcw⟩ := h
  have hc2 : c ∈ l.dropWhile isWS := by
    have hsplit := List.takeWhile_append_dropWhile isWS l
    rcases List.mem_append.mp (hsplit ▸ hc) with h1 | h1
    · exact absurd (List.mem_takeWhile_imp h1) (by simp [hcw])
    · exact h1
  have := hnil c (List.mem_reverse.mpr hc2)
  simp [hcw] at this

/-- A non-empty stripped string contains a non-whitespace character (its last
character, the head of the second `dropWhile`). -/
theorem pyStrip_has_nonws (l : List Char) (h : pyStrip l ≠ []) :
    ∃ c ∈ pyStrip l, isWS c = false := by
  unfold pyStrip at *
  have h2 : (l.dropWhile isWS).reverse.dropWhile isWS ≠ [] := by
    intro hc; rw [hc] at h; simp at h
  refine ⟨((l.dropWhile isWS).reverse.dropWhile isWS).head h2, ?_, ?_⟩
  · rw [List.mem_reverse]
    exact List.head_mem h2
  · have := List.head_dropWhile_not isWS (l.dropWhile isWS).reverse h2
    simpa using this

/-- Every hard-split piece is non-empty: pieces are emitted only while
`start < len(s)` and have positive length when `0 < size`. -/
theorem hsGo_mem_ne_nil (s : List Char) (size step : Nat) (hsize : 0 < size) :
    ∀ fuel start, ∀ p ∈ hsGo s size step fuel start, p ≠ [] := by
  intro fuel
  induction fuel with
  | zero => intro start p hp; simp [hsGo] at hp
  | succ f ih =>
    intro start p hp
    by_cases hlt : start < s.length
    · simp only [hsGo, hlt, if_true, List.mem_cons] at hp
      rcases hp with rfl | hp
      · apply List.ne_nil_of_length_pos
        simp [List.length_take, List.length_drop]
        omega
      · exact ih _ p hp
    · simp [hsGo, hlt] at hp

/-- Every hard-split piece has at most `size` characters. -/
theorem hsGo_mem_length_le (s : List Char) (size step : Nat) :
    ∀ fuel start, ∀ p ∈ hsGo s size step fuel start, p.length ≤ size := by
  intro fuel
  induction fuel with
  | zero => intro start p hp; simp [hsGo] at hp
  | succ f ih =>
    intro start p hp
    by_cases hlt : start < s.length
    · simp only [hsGo, hlt, if_true, List.mem_cons] at hp
      rcases hp with rfl | hp
      · simp [List.length_take]
      · exact ih _ p hp
    · simp [hsGo, hlt] at hp

/-- Invariant of the sentence-accumulation loop: all emitted chunks are
non-empty provided the buffer is empty or contains a non-whitespace
character. -/
theorem chunkLoop_ne_nil (size ov : Nat) (hsize : 0 < size) :
    ∀ sentences current chunks,
      (∀ ch ∈ chunks, ch ≠ []) →
      (current = [] ∨ ∃ c ∈ current, isWS c = false) →
      ∀ ch ∈ chunkLoop size ov sentences current chunks, ch ≠ [] := by
  intro sentences
  induction sentences with
  | nil =>
    intro current chunks hchunks hcur ch hch
    rcases hcur with hcur | hcur
    · simp only [chunkLoop, hcur, if_true] at hch
      exact hchunks ch hch
    · have hcne : current ≠ [] := by
        rintro rfl; simp at hcur
      simp only [chunkLoop, hcne, if_false, List.mem_append, List.mem_singleton] at hch
      rcases hch with hch | rfl
      · exact hchunks ch hch
      · exact hcne
  | cons s0 rest ih =>
    intro current chunks hchunks hcur ch hch
    simp only [chunkLoop] at hch
    by_cases hs : pyStrip s0 = []
    · rw [if_pos hs] at hch
      exact ih current chunks hchunks hcur ch hch
    have hsnw : ∃ c ∈ pyStrip s0, isWS c = false := pyStrip_has_nonws s0 hs
    rw [if_neg hs] at hch
    by_cases hfit : current.length + 1 + (pyStrip s0).length ≤ size
    · rw [if_pos hfit] at hch
      by_cases hce : current = []
      · rw [if_pos hce] at hch
        exact ih _ chunks hchunks (Or.inr hsnw) ch hch
      · rw [if_neg hce] at hch
        refine ih _ chunks hchunks (Or.inr ?_) ch hch
        obtain ⟨c, hc, hcw⟩ := hsnw
        have hmem : ∃ c ∈ current ++ [' '] ++ pyStrip s0, isWS c = false :=
          ⟨c, by simp [hc], hcw⟩
        exact pyStrip_has_nonws _ (pyStrip_ne_nil _ hmem)
    · rw [if_neg hfit] at hch
      have hchunks1 : ∀ c ∈ (if current = [] then chunks else chunks ++ [current]), c ≠ [] := by
        intro c hc
        by_cases hce : current = []
        · rw [if_pos hce] at hc; exact hchunks c hc
        · rw [if_neg hce] at hc
          rcases List.mem_append.mp hc with hc | hc
          · exact hchunks c hc
          · simp at hc; subst hc; exact hce
      by_cases hlong : (pyStrip s0).length > size
      · rw [if_pos hlong] at hch
        refine ih [] _ ?_ (Or.inl rfl) ch hch
        intro c hc
        rcases List.mem_append.mp hc with hc | hc
        · exact hchunks1 c hc
        · exact hsGo_mem_ne_nil _ size (size - ov) hsize _ _ c hc
      · rw [if_neg hlong] at hch
        exact ih _ _ hchunks1 (Or.inr hsnw) ch hch

/-- Invariant of the sentence-accumulation loop: all emitted chunks have at
most `size` characters provided the emitted chunks so far and the buffer do. -/
theorem chunkLoop_length_le (size ov : Nat) :
    ∀ sentences current chunks,
      (∀ ch ∈ chunks, ch.length ≤ size) → current.length ≤ size →
      ∀ ch ∈ chunkLoop size ov sentences current chunks, ch.length ≤ size := by
  intro sentences
  induction sentences with
  | nil =>
    intro current chunks hchunks hcur ch hch
    by_cases hce : current = []
    · simp only [chunkLoop, hce, if_true] at hch
      exact hchunks ch hch
    · simp only [chunkLoop, hce, if_false, List.mem_append, List.mem_singleton] at hch
      rcases hch with hch | rfl
      · exact hchunks ch hch
      · exact hcur
  | cons s0 rest ih =>
    intro current chunks hchunks hcur ch hch
    simp only [chunkLoop] at hch
    by_cases hs : pyStrip s0 = []
    · rw [if_pos hs] at hch
      exact ih current chunks hchunks hcur ch hch
    rw [if_neg hs] at hch
    by_cases hfit : current.length + 1 + (pyStrip s0).length ≤ size
    · rw [if_pos hfit] at hch
      by_cases hce : current = []
      · rw [if_pos hce] at hch
        refine ih _ chunks hchunks ?_ ch hch
        omega
      · rw [if_neg hce] at hch
        refine ih _ chunks hchunks ?_ ch hch
        have h1 := pyStrip_length_le (current ++ [' '] ++ pyStrip s0)
        have h2 : (current ++ [' '] ++ pyStrip s0).length =
            current.length + 1 + (pyStrip s0).length := by
          simp [List.length_append]
          omega
        omega
    · rw [if_neg hfit] at hch
      have hchunks1 : ∀ c ∈ (if current = [] then chunks else chunks ++ [current]),
          c.length ≤ size := by
        intro c hc
        by_cases hce : current = []
        · rw [if_pos hce] at hc; exact hchunks c hc
        · rw [if_neg hce] at hc
          rcases List.mem_append.mp hc with hc | hc
          · exact hchunks c hc
          · simp at hc; subst hc; exact hcur
      by_cases hlong : (pyStrip s0).length > size
      · rw [if_pos hlong] at hch
        refine ih [] _ ?_ (by simp) ch hch
        intro c hc
        rcases List.mem_append.mp hc with hc | hc
        · exact hchunks1 c hc
        · exact hsGo_mem_length_le _ size (size - ov) _ _ c hc
      · rw [if_neg hlong] at hch
        exact ih _ _ hchunks1 (by omega) ch hch

/-- C6 counterexample: whitespace-only input yields a single empty chunk
(`text` is truthy, strips to `""`, and `len("") <= chunk_size` returns
`[""]`); and a long sentence whose middle is blank yields a hard-split piece
that is purely whitespace. -/
theorem c6_counterexample :
    simple_chunk_text " ".data 1000 200 = [[]] ∧
      ∃ ch ∈ simple_chunk_text ('a' :: (List.replicate 20 ' ' ++ ['b'])) 10 2,
        ch ≠ [] ∧ ch.all isWS := by
  decide

/-- C6 amended: for inputs containing at least one non-whitespace character
(as every text reaching the chunker from `index_documents` does) every chunk
is non-empty; a whitespace-only input instead yields the single empty chunk,
and a hard-split piece may still be purely whitespace. -/
theorem c6_amended (text : List Char) (size ov : Nat) (hov : ov < size)
    (h : ∃ c ∈ text, isWS c = false) :
    ∀ ch ∈ simple_chunk_text text size ov, ch ≠ [] := by
  have hsize : 0 < size := by omega
  have htext : text ≠ [] := by rintro rfl; simp at h
  intro ch hch
  simp only [simple_chunk_text, if_neg htext] at hch
  by_cases hlen : (pyStrip text).length ≤ size
  · rw [if_pos hlen] at hch
    simp only [List.mem_singleton] at hch
    subst hch
    exact pyStrip_ne_nil text h
  · rw [if_neg hlen] at hch
    exact chunkLoop_ne_nil size ov hsize (resplit (pyStrip text)) [] []
      (by simp) (Or.inl rfl) ch hch

/-- C6 witness: the amended statement applied to a concrete two-letter input
and its single chunk. -/
theorem c6_amended_witness :
    (2 : Nat) < 10 ∧ (∃ c ∈ "ab".data, isWS c = false) ∧ "ab".data ≠ [] :=
  ⟨by decide, by decide,
    c6_amended "ab".data 10 2 (by decide) (by decide) "ab".data (by decide)⟩

/-- Position formula for the hard-split pieces: with a positive step and
enough fuel, the `i`-th piece is the slice of length at most `size` starting
at `i * step`. -/
theorem hsGo_getElem? (s : List Char) (size step : Nat) (hstep : 0 < step) :
    ∀ fuel start i, s.length - start ≤ fuel →
      (hsGo s size step fuel start)[i]? =
        if start + i * step < s.length then some ((s.drop (start + i * step)).take size)
        else none := by
  intro fuel
  induction fuel with
  | zero =>
    intro start i hb
    have h2 : ¬ start + i * step < s.length := by omega
    simp [hsGo, h2]
  | succ f ih =>
    intro start i hb
    by_cases hlt : start < s.length
    · simp only [hsGo, hlt, if_true]
      cases i with
      | zero => simp [hlt]
      | succ i =>
        rw [List.getElem?_cons_succ, ih (start + step) i (by omega)]
        have harith : start + step + i * step = start + (i + 1) * step := by ring
        rw [harith]
    · have h2 : ¬ start + i * step < s.length := by omega
      simp [hsGo, hlt, h2]

/-- C5 counterexample: an 11-character sentence at `size = 10`, `overlap = 8`
is hard-split into pieces of lengths 10, 9, 7, 5, 3, 1 — pieces short of
`size` occur before the last one, and the pieces at indices 1 and 2 do not
overlap by 8 characters (last-8 suffix of one differs from first-8 prefix of
the next). -/
theorem c5_counterexample :
    (simple_chunk_text "abcdefghijk".data 10 8).map List.length = [10, 9, 7, 5, 3, 1] ∧
      ¬ ((simple_chunk_text "abcdefghijk".data 10 8).dropLast.all
          (fun c => c.length = 10)) ∧
      ¬ (((simple_chunk_text "abcdefghijk".data 10 8).getD 1 []).drop
            (((simple_chunk_text "abcdefghijk".data 10 8).getD 1 []).length - 8) =
          ((simple_chunk_text "abcdefghijk".data 10 8).getD 2 []).take 8) := by
  decide

/-- C5 amended: every chunk has at most `size` characters; the hard-split
pieces are the slices `s[i*(size-ov) : i*(size-ov)+size]`, so consecutive
starts advance by exactly `size - ov`; a piece is exactly `size` characters
iff its start admits `size` remaining characters — short pieces may occur
before the last; and a piece of full length shares exactly its last `ov`
characters with its successor's prefix (for short pieces the shared part is
shorter). -/
theorem c5_amended (text s : List Char) (size ov : Nat) (hov : ov < size) :
    (∀ ch ∈ simple_chunk_text text size ov, ch.length ≤ size) ∧
      (∀ i, (hardSplit s size ov)[i]? =
        if i * (size - ov) < s.length then some ((s.drop (i * (size - ov))).take size)
        else none) ∧
      (∀ i, i * (size - ov) + size ≤ s.length → (i + 1) * (size - ov) < s.length →
        ((hardSplit s size ov).getD i []).drop (size - ov) =
            ((hardSplit s size ov).getD (i + 1) []).take ov ∧
          (((hardSplit s size ov).getD i []).drop (size - ov)).length = ov) := by
  have hstep : 0 < size - ov := by omega
  have hpos : ∀ i, (hardSplit s size ov)[i]? =
      if i * (size - ov) < s.length then some ((s.drop (i * (size - ov))).take size)
      else none := by
    intro i
    have := hsGo_getElem? s size (size - ov) hstep (s.length + 1) 0 i (by omega)
    simpa using this
  refine ⟨?_, hpos, ?_⟩
  · intro ch hch
    by_cases htext : text = []
    · simp [simple_chunk_text, htext] at hch
    simp only [simple_chunk_text, if_neg htext] at hch
    by_cases hlen : (pyStrip text).length ≤ size
    · rw [if_pos hlen] at hch
      simp only [List.mem_singleton] at hch
      subst hch
      exact hlen
    · rw [if_neg hlen] at hch
      exact chunkLoop_length_le size ov (resplit (pyStrip text)) [] []
        (by simp) (by simp) ch hch
  · intro i hfull hnext
    have hsucc0 : i * (size - ov) + (size - ov) = (i + 1) * (size - ov) := by ring
    have hi : i * (size - ov) < s.length := by omega
    have hgi : ((hardSplit s size ov).getD i []) =
        (s.drop (i * (size - ov))).take size := by
      have := hpos i
      rw [if_pos hi] at this
      simp [List.getD, this]
    have hgi1 : ((hardSplit s size ov).getD (i + 1) []) =
        (s.drop ((i + 1) * (size - ov))).take size := by
      have := hpos (i + 1)
      rw [if_pos hnext] at this
      simp [List.getD, this]
    have hsucc : (i + 1) * (size - ov) = i * (size - ov) + (size - ov) := by ring
    constructor
    · rw [hgi, hgi1, List.drop_take, List.take_take, List.drop_drop, hsucc]
      have h1 : size - (size - ov) = ov := by omega
      have h2 : min ov size = ov := by omega
      rw [h1, h2, Nat.add_comm (i * (size - ov)) (size - ov)]
    · rw [hgi, List.drop_take, List.length_take, List.length_drop, List.length_drop]
      have h1 : size - (size - ov) = ov := by omega
      rw [h1]
      omega

/-- C5 witness: the amended statement instantiated at `size = 10`,
`overlap = 2`. -/
theorem c5_amended_witness :
    (2 : Nat) < 10 ∧
      ((∀ ch ∈ simple_chunk_text "hello there world".data 10 2, ch.length ≤ 10) ∧
        (∀ i, (hardSplit "abcdefghijklmnopqrstuvwxy".data 10 2)[i]? =
          if i * (10 - 2) < ("abcdefghijklmnopqrstuvwxy".data).length then
            some ((("abcdefghijklmnopqrstuvwxy".data).drop (i * (10 - 2))).take 10)
          else none) ∧
        (∀ i, i * (10 - 2) + 10 ≤ ("abcdefghijklmnopqrstuvwxy".data).length →
            (i + 1) * (10 - 2) < ("abcdefghijklmnopqrstuvwxy".data).length →
          ((hardSplit "abcdefghijklmnopqrstuvwxy".data 10 2).getD i []).drop (10 - 2) =
              ((hardSplit "abcdefghijklmnopqrstuvwxy".data 10 2).getD (i + 1) []).take 2 ∧
            (((hardSplit "abcdefghijklmnopqrstuvwxy".data 10 2).getD i []).drop
              (10 - 2)).length = 2)) :=
  ⟨by decide, c5_amended "hello there world".data "abcdefghijklmnopqrstuvwxy".data 10 2
    (by decide)⟩

/-- A list whose head does not satisfy `p` is unchanged by `dropWhile p`. -/
theorem dropWhile_eq_self_of_head (p : Char → Bool) (l : List Char)
    (h : ∀ c, l.head? = some c → p c = false) : l.dropWhile p = l := by
  cases l with
  | nil => rfl
  | cons c t => rw [List.dropWhile_cons]; simp [h c rfl]

/-- The head of a surviving `dropWhile p` does not satisfy `p`. -/
theorem head?_dropWhile_nonp (p : Char → Bool) (m : List Char) (c : Char)
    (h : (m.dropWhile p).head? = some c) : p c = false := by
  induction m with
  | nil => simp at h
  | cons a t ih =>
    rw [List.dropWhile_cons] at h
    by_cases hp : p a
    · rw [if_pos hp] at h
      exact ih h
    · rw [if_neg hp] at h
      simp only [List.head?_cons, Option.some.injEq] at h
      subst h
      simpa using hp

/-- `dropWhile` does not change the last element of a list it leaves
non-empty. -/
theorem getLast?_dropWhile (p : Char → Bool) (m : List Char)
    (h : m.dropWhile p ≠ []) : (m.dropWhile p).getLast? = m.getLast? := by
  induction m with
  | nil => simp at h
  | cons a t ih =>
    rw [List.dropWhile_cons] at h ⊢
    by_cases hp : p a
    · rw [if_pos hp] at h ⊢
      have ht : t ≠ [] := by
        rintro rfl; simp at h
      rw [ih h]
      cases t with
      | nil => exact absurd rfl ht
      | cons b u => rw [List.getLast?_cons_cons]
    · rw [if_neg hp]

/-- A string whose first and last characters are non-whitespace strips to
itself. -/
theorem pyStrip_eq_self (l : List Char)
    (h1 : ∀ c, l.head? = some c → isWS c = false)
    (h2 : ∀ c, l.getLast? = some c → isWS c = false) : pyStrip l = l := by
  unfold pyStrip
  rw [dropWhile_eq_self_of_head _ _ h1]
  rw [dropWhile_eq_self_of_head _ _ (fun c hc => h2 c (by rwa [List.head?_reverse] at hc))]
  simp

/-- Python `strip` is idempotent. -/
theorem pyStrip_idem (l : List Char) : pyStrip (pyStrip l) = pyStrip l := by
  by_cases h : pyStrip l = []
  · rw [h]; rfl
  · apply pyStrip_eq_self
    · intro c hc
      unfold pyStrip at hc h
      rw [List.head?_reverse] at hc
      have hBne : (l.dropWhile isWS).reverse.dropWhile isWS ≠ [] := by
        intro hx; rw [hx] at h; simp at h
      rw [getLast?_dropWhile isWS (l.dropWhile isWS).reverse hBne] at hc
      rw [List.getLast?_reverse] at hc
      exact head?_dropWhile_nonp isWS l c hc
    · intro c hc
      unfold pyStrip at hc
      rw [List.getLast?_reverse] at hc
      exact head?_dropWhile_nonp isWS _ c hc

/-- One-step unfolding of `dropOverlapJoin` on a cons cell. -/
theorem dropOverlapJoin_cons (step : Nat) (p : List Char) (L : List (List Char)) :
    dropOverlapJoin step (p :: L) =
      if L = [] then p else p.take step ++ dropOverlapJoin step L := by
  cases L <;> simp [dropOverlapJoin]

/-- The hard-split pieces, overlaps removed, concatenate back to the split
sentence: each non-last piece contributes its first `step` characters, the
last piece the whole remainder. -/
theorem hsGo_reconstruct (s : List Char) (size step : Nat) (hstep : 0 < step)
    (hss : step ≤ size) :
    ∀ fuel start, start < s.length → s.length - start ≤ fuel →
      dropOverlapJoin step (hsGo s size step fuel start) = s.drop start := by
  intro fuel
  induction fuel with
  | zero => intro start h1 h2; omega
  | succ f ih =>
    intro start h1 h2
    simp only [hsGo, h1, if_true]
    rw [dropOverlapJoin_cons]
    by_cases hnil : hsGo s size step f (start + step) = []
    · rw [if_pos hnil]
      have hend : s.length ≤ start + step := by
        rcases f with _ | f2
        · omega
        · by_contra hcon
          push_neg at hcon
          simp [hsGo, hcon] at hnil
      apply List.take_of_length_le
      simp only [List.length_drop]
      omega
    · rw [if_neg hnil]
      have hnext : start + step < s.length := by
        by_contra hcon
        push_neg at hcon
        rcases f with _ | f2
        · simp [hsGo] at hnil
        · have : ¬ start + step < s.length := by omega
          simp [hsGo, this] at hnil
      rw [ih (start + step) hnext (by omega)]
      have htk : ((s.drop start).take size).take step = (s.drop start).take step := by
        rw [List.take_take, Nat.min_eq_left hss]
      rw [htk]
      have hdd : s.drop (start + step) = (s.drop start).drop step := by
        rw [List.drop_drop, Nat.add_comm]
      rw [hdd, List.take_append_drop]

set_option maxRecDepth 100000

/-- C4 counterexample: the separator characters between sentences are consumed
by the sentence split and never re-emitted — here the two newline characters
of the input appear in no chunk at all, so no overlap-removing concatenation
of the chunks can reconstruct the input. -/
theorem c4_counterexample :
    '\n' ∈ (List.replicate 599 'a' ++ '.' :: '\n' :: '\n' ::
        (List.replicate 599 'b' ++ ['.'])) ∧
      ∀ ch ∈ simple_chunk_text (List.replicate 599 'a' ++ '.' :: '\n' :: '\n' ::
          (List.replicate 599 'b' ++ ['.'])) 1000 200,
        '\n' ∉ ch := by
  decide

/-- C4 amended: lossless reconstruction holds for single-sentence inputs (no
sentence separator inside): concatenating the chunks with the overlapping
portions removed — each chunk keeps its first `size - ov` characters, the
last keeps everything — yields the stripped input.  For multi-sentence inputs
the whitespace consumed by the sentence split is dropped, so reconstruction
fails in general. -/
theorem c4_amended (text : List Char) (size ov : Nat) (hov : ov < size)
    (htext : text ≠ []) (hsingle : resplit (pyStrip text) = [pyStrip text]) :
    dropOverlapJoin (size - ov) (simple_chunk_text text size ov) = pyStrip text := by
  have hstep : 0 < size - ov := by omega
  simp only [simple_chunk_text, if_neg htext]
  by_cases hlen : (pyStrip text).length ≤ size
  · rw [if_pos hlen]
    simp [dropOverlapJoin]
  · rw [if_neg hlen, hsingle]
    have hids := pyStrip_idem text
    have hne2 : pyStrip text ≠ [] := by
      intro hx
      rw [hx] at hlen
      simp at hlen
    have hlong : (pyStrip text).length > size := by omega
    have hfit2 : ¬ (1 + (pyStrip text).length ≤ size) := by omega
    have hfit3 : ¬ ((pyStrip text).length + 1 ≤ size) := by omega
    have hloop : chunkLoop size ov [pyStrip text] [] [] =
        hardSplit (pyStrip text) size ov := by
      simp [chunkLoop, hids, hne2, hfit2, hfit3, hlong]
    rw [hloop]
    unfold hardSplit
    rw [hsGo_reconstruct (pyStrip text) size (size - ov) hstep (by omega)
      ((pyStrip text).length + 1) 0 (by omega) (by omega)]
    simp

/-- C4 witness: a single 25-character sentence at `size = 10`, `ov = 2` is
hard-split and reconstructs exactly. -/
theorem c4_amended_witness :
    (2 : Nat) < 10 ∧ ("aaaaaaaaaaaaaaaaaaaaaaaaa".data ≠ []) ∧
      resplit (pyStrip "aaaaaaaaaaaaaaaaaaaaaaaaa".data) =
        [pyStrip "aaaaaaaaaaaaaaaaaaaaaaaaa".data] ∧
      dropOverlapJoin (10 - 2) (simple_chunk_text "aaaaaaaaaaaaaaaaaaaaaaaaa".data 10 2) =
        pyStrip "aaaaaaaaaaaaaaaaaaaaaaaaa".data :=
  ⟨by decide, by decide, by decide,
    c4_amended "aaaaaaaaaaaaaaaaaaaaaaaaa".data 10 2 (by decide) (by decide) (by decide)⟩

/-! ## Claim C3: bounded, sorted, deterministically tie-broken search -/

/-- The argsort order is total. -/
theorem rankLE_total (d : List ℚ) : ∀ i j, rankLE d i j ∨ rankLE d j i := by
  intro i j
  rcases lt_trichotomy (dAt d i) (dAt d j) with h | h | h
  · exact Or.inl (Or.inl h)
  · rcases Nat.le_total i j with hij | hij
    · exact Or.inl (Or.inr ⟨h, hij⟩)
    · exact Or.inr (Or.inr ⟨h.symm, hij⟩)
  · exact Or.inr (Or.inl h)

/-- The argsort order is transitive. -/
theorem rankLE_trans (d : List ℚ) :
    ∀ i j k2, rankLE d i j → rankLE d j k2 → rankLE d i k2 := by
  intro i j k2 h1 h2
  rcases h1 with h1 | ⟨h1e, h1le⟩
  · rcases h2 with h2 | ⟨h2e, _⟩
    · exact Or.inl (h1.trans h2)
    · exact Or.inl (lt_of_lt_of_le h1 (le_of_eq h2e))
  · rcases h2 with h2 | ⟨h2e, h2le⟩
    · exact Or.inl (lt_of_le_of_lt (le_of_eq h1e) h2)
    · exact Or.inr ⟨h1e.trans h2e, h1le.trans h2le⟩

instance (d : List ℚ) : IsTotal Nat (rankLE d) := ⟨rankLE_total d⟩

instance (d : List ℚ) : IsTrans Nat (rankLE d) := ⟨rankLE_trans d⟩

/-- The argsort output is sorted in the argsort order. -/
theorem argsort_sorted (d : List ℚ) : List.Sorted (rankLE d) (argsort d) :=
  List.sorted_insertionSort (rankLE d) (List.range d.length)

/-- The argsort output has no duplicate indices. -/
theorem argsort_nodup (d : List ℚ) : (argsort d).Nodup :=
  (List.perm_insertionSort (rankLE d) (List.range d.length)).symm.nodup
    (List.nodup_range _)

/-- The brute-force search emits `(distance, index)` pairs in strictly
ascending lexicographic order: ascending distance, ties by ascending original
index. -/
theorem safe_cosine_search_pairwise (d : List ℚ) (k : Nat) :
    List.Pairwise (fun a b : ℚ × Nat => a.1 < b.1 ∨ (a.1 = b.1 ∧ a.2 < b.2))
      (safe_cosine_search d k) := by
  unfold safe_cosine_search
  rw [List.pairwise_map]
  have hp : ((argsort d).take k).Pairwise (fun i j => rankLE d i j ∧ i ≠ j) :=
    ((argsort_sorted d).and (argsort_nodup d)).sublist (List.take_sublist k _)
  refine hp.imp ?_
  rintro i j ⟨hij, hne⟩
  rcases hij with h | ⟨he, hle⟩
  · exact Or.inl h
  · exact Or.inr ⟨he, lt_of_le_of_ne hle hne⟩

/-- The brute-force search emits at most `top_k` results. -/
theorem safe_cosine_search_length_le (d : List ℚ) (k : Nat) :
    (safe_cosine_search d k).length ≤ k := by
  unfold safe_cosine_search
  rw [List.length_map]
  simp [List.length_take]

/-- Deduplication only removes elements, preserving relative order. -/
theorem dedupeByText_sublist :
    ∀ (l : List (ℚ × ChunkRecord)) (seen : List (List Char)),
      List.Sublist (dedupeByText l seen) l := by
  intro l
  induction l with
  | nil => intro seen; simp [dedupeByText]
  | cons p rest ih =>
    intro seen
    obtain ⟨d, m⟩ := p
    simp only [dedupeByText]
    by_cases hm : m.text ∈ seen
    · rw [if_pos hm]
      exact (ih _).cons _
    · rw [if_neg hm]
      exact (ih _).cons₂ _

/-- Similarity value carried by a faiss distance cell. -/
def simOf : NpFloat → ℚ
  | .nan => 0
  | .val q => q

/-- Total version of the Python metadata lookup, meaningful on in-range
indices. -/
def pyGetD (l : List ChunkRecord) (i : ℤ) : ChunkRecord :=
  match pyGet l i with
  | .ok m => m
  | .error _ => default

/-- Whether the Python metadata lookup succeeds. -/
def pyGetOk (l : List ChunkRecord) (i : ℤ) : Bool :=
  match pyGet l i with
  | .ok _ => true
  | .error _ => false

/-- On a reply whose distances are all valid and whose indices all resolve,
the faiss loop collects the converted `(1 - s, record)` pairs in reply
order. -/
theorem faissLoop_ok (meta : List ChunkRecord) :
    ∀ (pairs : List (NpFloat × ℤ)) (acc : List (ℚ × ChunkRecord)),
      (∀ p ∈ pairs, p.1.isInvalid = false ∧ pyGetOk meta p.2 = true) →
      faissLoop meta pairs acc =
        .ok (acc ++ pairs.map (fun p => (1 - simOf p.1, pyGetD meta p.2))) := by
  intro pairs
  induction pairs with
  | nil => intro acc h; simp [faissLoop]
  | cons p rest ih =>
    intro acc h
    obtain ⟨dv, idx⟩ := p
    obtain ⟨hinv, hok⟩ := h _ (List.mem_cons_self _ _)
    obtain ⟨m, hget⟩ : ∃ m, pyGet meta idx = Except.ok m := by
      rcases hg : pyGet meta idx with e | m
      · simp [pyGetOk, hg] at hok
      · exact ⟨m, rfl⟩
    cases dv with
    | nan => simp [NpFloat.isInvalid] at hinv
    | val s =>
      simp only [faissLoop, hinv, Bool.false_eq_true, if_false, hget]
      rw [ih _ (fun p hp => h p (List.mem_cons_of_mem _ hp))]
      simp [pyGetD, hget, simOf]

/-- The faiss branch of `query` on an all-valid reply: convert in order, then
dedupe. -/
theorem faissPathRun_ok (meta : List ChunkRecord) (pairs : List (NpFloat × ℤ))
    (hval : ∀ p ∈ pairs, p.1.isInvalid = false ∧ pyGetOk meta p.2 = true) :
    faissPathRun meta (.ok pairs) =
      .ok (dedupeByText (pairs.map (fun p => (1 - simOf p.1, pyGetD meta p.2))) []) := by
  simp [faissPathRun, faissLoop_ok meta pairs [] hval]

/-- C3 counterexample: the vector-index path applies no tie-breaking of its
own — it emits the external reply's order verbatim.  On a two-record store, a
reply carrying equal similarities with the higher index listed first is
returned by `query` as two equal-distance results with the record of
insertion index 1 before the record of insertion index 0, violating
lower-index-wins. -/
theorem c3_counterexample :
    (query ⟨some [[(1 : ℚ)]], [⟨['f'], ['x']⟩, ⟨['f'], ['y']⟩]⟩ true true
        (.ok [(NpFloat.val (1 : ℚ), (1 : ℤ)), (NpFloat.val (1 : ℚ), (0 : ℤ))])
        [(0 : ℚ), 0] 5).toOption =
      some [((0 : ℚ), ⟨['f'], ['y']⟩), ((0 : ℚ), ⟨['f'], ['x']⟩)] ∧
      [(⟨['f'], ['x']⟩ : ChunkRecord), ⟨['f'], ['y']⟩].getD 1 default = ⟨['f'], ['y']⟩ ∧
      [(⟨['f'], ['x']⟩ : ChunkRecord), ⟨['f'], ['y']⟩].getD 0 default = ⟨['f'], ['x']⟩ := by
  have h0 : (1 : ℚ) - 1 = 0 := by norm_num
  have hne : ([⟨['f'], ['x']⟩, ⟨['f'], ['y']⟩] : List ChunkRecord) ≠ [] := by decide
  have hxy : ('x' : Char) ≠ 'y' := by decide
  refine ⟨?_, by decide, by decide⟩
  norm_num [query, faissPathRun, faissLoop, pyGet, dedupeByText, NpFloat.isInvalid,
    Except.toOption, h0, hne, hxy]

/-- C3 amended: both search paths return at most `k` results sorted ascending
by distance — the vector-index path whenever the external reply's
similarities are descending, as the faiss contract provides.  Distance ties
are not broken by the code: the vector path returns exactly the converted,
deduplicated reply in the reply's own order (last conjunct), and the
brute-force path emits whatever order `np.argsort` produces, whose default
sort kind documents no tie order. -/
theorem c3_amended (meta : List ChunkRecord) (dists : List ℚ)
    (k : Nat) (pairs : List (NpFloat × ℤ))
    (hval : ∀ p ∈ pairs, p.1.isInvalid = false ∧ pyGetOk meta p.2 = true)
    (hlen : pairs.length ≤ k)
    (hsorted : List.Pairwise (fun a b => simOf b.1 ≤ simOf a.1) pairs) :
    ((safe_cosine_search dists k).length ≤ k ∧
      List.Pairwise (fun a b : ℚ × Nat => a.1 ≤ b.1) (safe_cosine_search dists k)) ∧
    ((queryFallback meta dists k).length ≤ k ∧
      List.Pairwise (fun a b : ℚ × ChunkRecord => a.1 ≤ b.1) (queryFallback meta dists k)) ∧
    (∃ res, faissPathRun meta (.ok pairs) = .ok res ∧ res.length ≤ k ∧
      List.Pairwise (fun a b : ℚ × ChunkRecord => a.1 ≤ b.1) res ∧
      res = dedupeByText (pairs.map (fun p => (1 - simOf p.1, pyGetD meta p.2))) []) := by
  have hle : List.Pairwise (fun a b : ℚ × Nat => a.1 ≤ b.1)
      (safe_cosine_search dists k) := by
    refine (safe_cosine_search_pairwise dists k).imp ?_
    rintro a b (h | ⟨he, _⟩)
    · exact le_of_lt h
    · exact le_of_eq he
  refine ⟨⟨safe_cosine_search_length_le dists k, hle⟩, ?_, ?_⟩
  · have hsub1 := dedupeByText_sublist
      (((safe_cosine_search dists k).filter (fun di => di.2 < meta.length)).map
        (fun di => (di.1, meta.getD di.2 default))) []
    constructor
    · calc (queryFallback meta dists k).length
          ≤ (((safe_cosine_search dists k).filter (fun di => di.2 < meta.length)).map
              (fun di => (di.1, meta.getD di.2 default))).length := hsub1.length_le
        _ = ((safe_cosine_search dists k).filter (fun di => di.2 < meta.length)).length := by
            rw [List.length_map]
        _ ≤ (safe_cosine_search dists k).length :=
            (List.filter_sublist _).length_le
        _ ≤ k := safe_cosine_search_length_le dists k
    · have hfil : List.Pairwise (fun a b : ℚ × Nat => a.1 ≤ b.1)
          ((safe_cosine_search dists k).filter (fun di => di.2 < meta.length)) :=
        hle.sublist (List.filter_sublist _)
      have hmap : List.Pairwise (fun a b : ℚ × ChunkRecord => a.1 ≤ b.1)
          (((safe_cosine_search dists k).filter (fun di => di.2 < meta.length)).map
            (fun di => (di.1, meta.getD di.2 default))) := by
        rw [List.pairwise_map]
        exact hfil.imp (fun h => h)
      exact hmap.sublist hsub1
  · refine ⟨_, faissPathRun_ok meta pairs hval, ?_, ?_, rfl⟩
    · calc (dedupeByText (pairs.map (fun p => (1 - simOf p.1, pyGetD meta p.2))) []).length
          ≤ (pairs.map (fun p => (1 - simOf p.1, pyGetD meta p.2))).length :=
            (dedupeByText_sublist _ _).length_le
        _ = pairs.length := by rw [List.length_map]
        _ ≤ k := hlen
    · have hmap : List.Pairwise (fun a b : ℚ × ChunkRecord => a.1 ≤ b.1)
          (pairs.map (fun p => (1 - simOf p.1, pyGetD meta p.2))) := by
        rw [List.pairwise_map]
        exact hsorted.imp (fun h => by simpa using sub_le_sub_left h 1)
      exact hmap.sublist (dedupeByText_sublist _ _)

/-- C3 witness: a concrete two-row store queried through both paths. -/
theorem c3_amended_witness :
    (∀ p ∈ [((NpFloat.val (2 : ℚ)), (0 : ℤ)), (NpFloat.val (1 : ℚ), (1 : ℤ))],
        p.1.isInvalid = false ∧
          pyGetOk [⟨"f".data, "x".data⟩, ⟨"f".data, "y".data⟩] p.2 = true) ∧
      ([((NpFloat.val (2 : ℚ)), (0 : ℤ)), (NpFloat.val (1 : ℚ), (1 : ℤ))].length ≤ 3) ∧
      List.Pairwise (fun a b => simOf b.1 ≤ simOf a.1)
        [((NpFloat.val (2 : ℚ)), (0 : ℤ)), (NpFloat.val (1 : ℚ), (1 : ℤ))] ∧
      (((safe_cosine_search [(3 : ℚ), 2] 3).length ≤ 3 ∧
        List.Pairwise (fun a b : ℚ × Nat => a.1 ≤ b.1)
          (safe_cosine_search [(3 : ℚ), 2] 3)) ∧
      ((queryFallback [⟨"f".data, "x".data⟩, ⟨"f".data, "y".data⟩] [(3 : ℚ), 2] 3).length ≤ 3 ∧
        List.Pairwise (fun a b : ℚ × ChunkRecord => a.1 ≤ b.1)
          (queryFallback [⟨"f".data, "x".data⟩, ⟨"f".data, "y".data⟩] [(3 : ℚ), 2] 3)) ∧
      (∃ res, faissPathRun [⟨"f".data, "x".data⟩, ⟨"f".data, "y".data⟩]
          (.ok [((NpFloat.val (2 : ℚ)), (0 : ℤ)), (NpFloat.val (1 : ℚ), (1 : ℤ))]) =
            .ok res ∧
        res.length ≤ 3 ∧ List.Pairwise (fun a b : ℚ × ChunkRecord => a.1 ≤ b.1) res ∧
        res = dedupeByText ([((NpFloat.val (2 : ℚ)), (0 : ℤ)),
            (NpFloat.val (1 : ℚ), (1 : ℤ))].map
          (fun p => (1 - simOf p.1,
            pyGetD [⟨"f".data, "x".data⟩, ⟨"f".data, "y".data⟩] p.2))) [])) :=
  ⟨by decide, by decide, by decide,
    c3_amended [⟨"f".data, "x".data⟩, ⟨"f".data, "y".data⟩]
      [(3 : ℚ), 2] 3 [((NpFloat.val (2 : ℚ)), (0 : ℤ)), (NpFloat.val (1 : ℚ), (1 : ℤ))]
      (by decide) (by decide) (by decide)⟩

/-! ## Claim C7: silent fallback of the vector-index path -/

/-- A reply containing an invalid distance makes the faiss loop raise. -/
theorem faissLoop_error (meta : List ChunkRecord) :
    ∀ (pairs : List (NpFloat × ℤ)) (acc : List (ℚ × ChunkRecord)),
      (∃ p ∈ pairs, p.1.isInvalid = true) →
      faissLoop meta pairs acc = .error () := by
  intro pairs
  induction pairs with
  | nil => intro acc h; simp at h
  | cons p rest ih =>
    intro acc h
    obtain ⟨dv, idx⟩ := p
    simp only [faissLoop]
    by_cases hinv : dv.isInvalid = true
    · rw [if_pos hinv]
    · rw [if_neg hinv]
      cases dv with
      | nan => rfl
      | val s =>
        rcases hget : pyGet meta idx with e | m
        · cases e; rfl
        · rcases h with ⟨p2, hp2, hpi⟩
          rcases List.mem_cons.mp hp2 with heq | hp2
          · rw [heq] at hpi
            exact absurd hpi hinv
          · exact ih _ ⟨p2, hp2, hpi⟩

/-- C7: on a non-empty store with the vector index active, a failing vector
search — the call raising, or any returned distance being NaN or out of
range — makes `query` return the brute-force results with no error
propagated. -/
theorem c7_vector_path_failure_falls_back (st : Store)
    (reply : Except Unit (List (NpFloat × ℤ))) (dists : List ℚ) (k : Nat)
    (hemb : st.embeddings.isNone = false) (hmeta : st.metadata ≠ [])
    (hbad : reply = Except.error () ∨
      ∃ pairs, reply = Except.ok pairs ∧ ∃ p ∈ pairs, p.1.isInvalid = true) :
    query st true true reply dists k = .ok (queryFallback st.metadata dists k) := by
  have hfail : faissPathRun st.metadata reply = .error () := by
    rcases hbad with rfl | ⟨pairs, rfl, hinv⟩
    · rfl
    · simp [faissPathRun, faissLoop_error st.metadata pairs [] hinv]
  have hmeta2 : decide (st.metadata = []) = false := by
    simpa using hmeta
  simp [query, hemb, hmeta2, hfail]

/-- C7 witness: a NaN distance in the reply triggers the fallback on a
one-row store. -/
theorem c7_witness :
    ((⟨some [[(1 : ℚ)]], [⟨"f".data, "x".data⟩]⟩ : Store).embeddings.isNone = false) ∧
      ((⟨some [[(1 : ℚ)]], [⟨"f".data, "x".data⟩]⟩ : Store).metadata ≠ []) ∧
      query ⟨some [[(1 : ℚ)]], [⟨"f".data, "x".data⟩]⟩ true true
          (.ok [(NpFloat.nan, (0 : ℤ))]) [(0 : ℚ)] 5 =
        .ok (queryFallback [⟨"f".data, "x".data⟩] [(0 : ℚ)] 5) :=
  ⟨by decide, by decide,
    c7_vector_path_failure_falls_back ⟨some [[(1 : ℚ)]], [⟨"f".data, "x".data⟩]⟩
      (.ok [(NpFloat.nan, (0 : ℤ))]) [(0 : ℚ)] 5 (by decide) (by decide)
      (Or.inr ⟨[(NpFloat.nan, (0 : ℤ))], rfl, ⟨(NpFloat.nan, (0 : ℤ)), by decide, by decide⟩⟩)⟩

/-! ## Claim C8: generation failure falls back to the local bullet answer -/

/-- Failure cases of the generation call that trigger the local fallback in
the source: transport error (line 69), non-200 status (line 72), non-JSON
body whose salvaged text cleans to empty (line 82), parsed body with an empty
extracted answer (line 98). -/
def failingOutcome : HttpOutcome → Prop
  | .transportError _ => True
  | .response s (.rawText t) => s ≠ 200 ∨ cleanToken t = []
  | .response s (.jsonExtracted a) => s ≠ 200 ∨ a = []

/-- On any failing outcome the generator returns exactly the local bulleted
fallback. -/
theorem generate_fallback_of_failing (summ : List Char → List Char) (q2 : List Char)
    (contexts : List (List Char)) (outcome : HttpOutcome)
    (h : failingOutcome outcome) :
    generate_answer_ollama summ q2 contexts outcome =
      local_bulleted_fallback summ contexts := by
  cases outcome with
  | transportError e => rfl
  | response s body =>
    cases body with
    | rawText t =>
      have h2 : s ≠ 200 ∨ cleanToken t = [] := h
      by_cases hs : s = 200
      · rcases h2 with h2 | h2
        · exact absurd hs h2
        · simp [generate_answer_ollama, hs, h2]
      · simp [generate_answer_ollama, hs]
    | jsonExtracted a =>
      have h2 : s ≠ 200 ∨ a = [] := h
      by_cases hs : s = 200
      · rcases h2 with h2 | h2
        · exact absurd hs h2
        · simp [generate_answer_ollama, hs, h2]
      · simp [generate_answer_ollama, hs]

/-- C8 counterexample: a response that is unparseable as JSON but has
non-empty body text is NOT answered with the local extractive fallback — the
cleaned raw body text is returned as the answer instead (llm_client.py lines
78-81). -/
theorem c8_counterexample :
    generate_answer_ollama (fun c => c) "q".data ["Ok.".data]
        (.response 200 (.rawText "hello".data)) = "hello".data ∧
      local_bulleted_fallback (fun c => c) ["Ok.".data] = "- Ok.".data ∧
      generate_answer_ollama (fun c => c) "q".data ["Ok.".data]
          (.response 200 (.rawText "hello".data)) ≠
        local_bulleted_fallback (fun c => c) ["Ok.".data] := by
  decide

/-- C8 amended: on transport failure, non-success status, parseable-but-empty
answer, or unparseable response with no salvageable text, the generator
returns the locally computed extractive bullet fallback and the worker still
records the job as `done` with that answer (an unparseable response with
non-empty cleaned text is instead returned verbatim as the answer, the job
equally reaching `done`). -/
theorem c8_amended (summ : List Char → List Char) (jobs : Jobs)
    (jobId q2 : List Char) (results : List (ℚ × ChunkRecord)) (outcome : HttpOutcome)
    (h : failingOutcome outcome) :
    (generate_answer_ollama summ q2
        (shorten_contexts summ (results.map (fun r => r.2.text))) outcome =
      local_bulleted_fallback summ (shorten_contexts summ (results.map (fun r => r.2.text)))) ∧
    get_job (worker_answer (create_job jobs jobId) jobId q2 summ (.ok results) outcome)
        jobId =
      some ⟨.done,
        some (local_bulleted_fallback summ (shorten_contexts summ
          (results.map (fun r => r.2.text))), results), none⟩ := by
  have hgen := generate_fallback_of_failing summ q2
    (shorten_contexts summ (results.map (fun r => r.2.text))) outcome h
  refine ⟨hgen, ?_⟩
  simp [worker_answer, create_job, set_job_running, set_job_done, updateJob, get_job,
    hgen]

/-- C8 witness: a transport error on a one-context query job. -/
theorem c8_amended_witness :
    failingOutcome (.transportError "boom".data) ∧
      ((generate_answer_ollama (fun c => c) "q".data
          (shorten_contexts (fun c => c)
            ([((1 : ℚ), (⟨"f".data, "Ok.".data⟩ : ChunkRecord))].map (fun r => r.2.text)))
          (.transportError "boom".data) =
        local_bulleted_fallback (fun c => c)
          (shorten_contexts (fun c => c)
            ([((1 : ℚ), (⟨"f".data, "Ok.".data⟩ : ChunkRecord))].map (fun r => r.2.text)))) ∧
      get_job (worker_answer (create_job [] "j".data) "j".data "q".data (fun c => c)
          (.ok [((1 : ℚ), ⟨"f".data, "Ok.".data⟩)]) (.transportError "boom".data))
          "j".data =
        some ⟨.done,
          some (local_bulleted_fallback (fun c => c)
            (shorten_contexts (fun c => c)
              ([((1 : ℚ), (⟨"f".data, "Ok.".data⟩ : ChunkRecord))].map (fun r => r.2.text))),
            [((1 : ℚ), ⟨"f".data, "Ok.".data⟩)]), none⟩) :=
  ⟨trivial, c8_amended (fun c => c) [] "j".data "q".data
    [((1 : ℚ), ⟨"f".data, "Ok.".data⟩)] (.transportError "boom".data) trivial⟩

end DR
